import Mathlib

set_option maxHeartbeats 1000000

/-!
Verification of the soltag extraction-and-resolution engine against its
natural-language specification.  The definitions below are shallow embeddings
of the TypeScript sources: `src/ast-utils.ts` (constant folder and embedding
recognizer), the editor diagnostics position mapper, `src/runtime/compiler.ts`
(compilation cache), `src/codegen.ts` (declaration codegen), the bundler
transform `src/bundler/unplugin.ts`, and the artifact hashing helper
`hashArtifacts`.  Host-language syntax trees are modelled as inductive types
whose constructors carry exactly the attributes the embedded functions read
(node texts and character positions).  Recursion through identifier bindings
is bounded by an explicit `fuel` parameter because the TypeScript functions
recurse through `const` initializers, which self-referential bindings could
make non-terminating; every theorem quantifies over the fuel.
-/

namespace Soltag

/-- TypeScript expression shapes distinguished by `resolveStringExpression`
(`src/ast-utils.ts`): string literal, no-substitution template literal,
template expression (head text plus spans of expression + trailing literal
text), identifier, binary expression (with a flag recording whether the
operator token is `+`), and a catch-all for every other shape. -/
inductive Expr where
  | stringLit (text : String)
  | noSubTemplate (text : String)
  | templateExpr (headText : String) (spans : List (Expr × String))
  | ident (name : String)
  | binary (isPlus : Bool) (left right : Expr)
  | otherExpr

/-- A variable declaration whose binding name is a plain identifier,
with an optional initializer (`decl.name.text`, `decl.initializer`). -/
structure VarDecl where
  name : String
  initializer : Option Expr

/-- A top-level statement of the source file: a variable statement carrying
its `const` flag and declaration list, or any other statement (skipped by
`resolveIdentifierToString`). -/
inductive Statement where
  | varStmt (isConst : Bool) (decls : List VarDecl)
  | otherStmt

mutual

/-- Model of `resolveStringExpression` (`src/ast-utils.ts` lines 43-74):
best-effort static evaluation of an expression to a string.  `sf` is the
source file's top-level statement list used for identifier lookup; `fuel`
bounds the number of identifier-binding hops. -/
def resolveStringExpression (fuel : Nat) (sf : List Statement) : Expr → Option String
  | .stringLit text => some text
  | .noSubTemplate text => some text
  | .templateExpr headText spans => resolveSpans fuel sf spans headText
  | .ident name =>
    match fuel with
    | 0 => none
    | f + 1 => resolveIdentifierToString f sf name sf
  | .binary isPlus l r =>
    if isPlus then
      match resolveStringExpression fuel sf l, resolveStringExpression fuel sf r with
      | some a, some b => some (a ++ b)
      | _, _ => none
    else none
  | .otherExpr => none
termination_by e => (fuel, sizeOf e)

/-- The template-expression loop of `resolveStringExpression`: fold each
span's expression and splice it with the span's literal text, accumulating
into `acc`; unresolved on the first unresolvable span. -/
def resolveSpans (fuel : Nat) (sf : List Statement) :
    List (Expr × String) → String → Option String
  | [], acc => some acc
  | (e, lit) :: rest, acc =>
    match resolveStringExpression fuel sf e with
    | none => none
    | some s => resolveSpans fuel sf rest (acc ++ s ++ lit)
termination_by spans _ => (fuel, sizeOf spans)

/-- Model of `resolveIdentifierToString` (`src/ast-utils.ts` lines 79-96):
scan the file's statements in order, skipping non-`const` variable
statements, and resolve the initializer of the first matching declaration. -/
def resolveIdentifierToString (fuel : Nat) (sf : List Statement) (name : String) :
    List Statement → Option String
  | [] => none
  | .varStmt isConst decls :: rest =>
    if isConst then
      match declsLookup fuel sf name decls with
      | some r => r
      | none => resolveIdentifierToString fuel sf name rest
    else resolveIdentifierToString fuel sf name rest
  | .otherStmt :: rest => resolveIdentifierToString fuel sf name rest
termination_by stmts => (fuel, sizeOf stmts)

/-- The inner declaration loop of `resolveIdentifierToString`: the first
declaration matching `name` that has an initializer makes the whole lookup
return that initializer's resolution (even when it is `none`). -/
def declsLookup (fuel : Nat) (sf : List Statement) (name : String) :
    List VarDecl → Option (Option String)
  | [] => none
  | ⟨dname, some init⟩ :: rest =>
    if dname = name then some (resolveStringExpression fuel sf init)
    else declsLookup fuel sf name rest
  | ⟨_, none⟩ :: rest => declsLookup fuel sf name rest
termination_by ds => (fuel, sizeOf ds)

end

/-- Declarative description used to state claim C6: the initializer of the
first (and, since top-level `const` redeclaration is illegal in TypeScript,
the nearest) `const` binding of `name` that has an initializer, in scan
order over the file's top-level statements. -/
def nearestConstInitializer (name : String) : List Statement → Option Expr
  | [] => none
  | .varStmt true decls :: rest =>
    match decls.find? (fun d => d.name == name && d.initializer.isSome) with
    | some d => d.initializer
    | none => nearestConstInitializer name rest
  | .varStmt false _ :: rest => nearestConstInitializer name rest
  | .otherStmt :: rest => nearestConstInitializer name rest

lemma declsLookup_eq_find (fuel : Nat) (sf : List Statement) (name : String)
    (ds : List VarDecl) :
    declsLookup fuel sf name ds =
      match ds.find? (fun d => d.name == name && d.initializer.isSome) with
      | some d => some ((d.initializer.getD .otherExpr) |> resolveStringExpression fuel sf)
      | none => none := by
  induction ds with
  | nil => simp [declsLookup]
  | cons d rest ih =>
    obtain ⟨dname, dinit⟩ := d
    cases dinit with
    | some init =>
      by_cases h : dname = name
      · simp [declsLookup, List.find?, h]
      · have hb : (dname == name) = false := by simp [h]
        simp [declsLookup, List.find?, h, hb, ih]
    | none =>
      simp [declsLookup, List.find?, ih]

lemma resolveIdentifierToString_eq_nearest (fuel : Nat) (sf : List Statement)
    (name : String) (stmts : List Statement) :
    resolveIdentifierToString fuel sf name stmts =
      (nearestConstInitializer name stmts).bind (resolveStringExpression fuel sf) := by
  induction stmts with
  | nil => simp [resolveIdentifierToString, nearestConstInitializer]
  | cons stmt rest ih =>
    cases stmt with
    | varStmt isConst decls =>
      cases isConst with
      | true =>
        rw [resolveIdentifierToString, nearestConstInitializer, declsLookup_eq_find]
        cases hf : decls.find? (fun d => d.name == name && d.initializer.isSome) with
        | none => simpa using ih
        | some d =>
          have hsome : d.initializer.isSome := by
            have := List.find?_some hf
            simp at this
            exact this.2
          obtain ⟨init, hinit⟩ := Option.isSome_iff_exists.mp hsome
          simp [hinit]
      | false =>
        rw [resolveIdentifierToString, nearestConstInitializer]
        simpa using ih
    | otherStmt =>
      rw [resolveIdentifierToString, nearestConstInitializer]
      simpa using ih

/-- Claim C5: For every binary `a + b` expression, the folder returns the
concatenation of the two folded sides whenever both resolve, and returns
`none` (unresolved) whenever either side is unresolved; the folder is a
total function, so unresolvable sub-expressions always propagate as
`unresolved` rather than as a thrown error. -/
theorem resolve_plus_spec (fuel : Nat) (sf : List Statement) (a b : Expr) :
    (∀ x y, resolveStringExpression fuel sf a = some x →
      resolveStringExpression fuel sf b = some y →
      resolveStringExpression fuel sf (.binary true a b) = some (x ++ y)) ∧
    ((resolveStringExpression fuel sf a = none ∨ resolveStringExpression fuel sf b = none) →
      resolveStringExpression fuel sf (.binary true a b) = none) := by
  constructor
  · intro x y hx hy
    rw [resolveStringExpression]
    simp [hx, hy]
  · intro h
    rw [resolveStringExpression]
    rcases h with h | h
    · simp [h]
    · cases ha : resolveStringExpression fuel sf a <;> simp [ha, h]

/-- Witness for C5: concrete evaluations going through `resolve_plus_spec`. -/
theorem resolve_plus_spec_witness :
    resolveStringExpression 0 [] (.binary true (.stringLit "A") (.stringLit "B")) = some "AB" ∧
    resolveStringExpression 0 [] (.binary true (.stringLit "A") .otherExpr) = none :=
  ⟨(resolve_plus_spec 0 [] (.stringLit "A") (.stringLit "B")).1 "A" "B"
      (by simp [resolveStringExpression]) (by simp [resolveStringExpression]),
   (resolve_plus_spec 0 [] (.stringLit "A") .otherExpr).2
      (Or.inr (by simp [resolveStringExpression]))⟩

/-- Claim C6: An identifier folds by locating the nearest `const` binding of
its name among the file's top-level statements (non-`const` statements are
skipped, as are matching declarations without initializer) and folding that
binding's initializer; when no such `const` binding with an initializer
exists the identifier folds to `none` (unresolved). -/
theorem resolve_ident_spec (fuel : Nat) (sf : List Statement) (name : String) :
    resolveStringExpression (fuel + 1) sf (.ident name) =
      (nearestConstInitializer name sf).bind (resolveStringExpression fuel sf) := by
  rw [resolveStringExpression]
  exact resolveIdentifierToString_eq_nearest fuel sf name sf

/-- One template span of a `TemplateExpression` as read by the editor
position mapper: the interpolation expression with its host `getStart` and
`getEnd` positions, followed by the span's literal text with its host
`getStart` position. -/
structure TemplateSpanNode where
  expr : Expr
  exprStart : Nat
  exprEnd : Nat
  litText : String
  litStart : Nat

/-- A template literal node: a no-substitution template literal, or a
template expression with head text and spans.  `tmplStart`/`headStart` are
host `getStart` positions (at the opening backtick), `endPos` the node's
host `getEnd`. -/
inductive TemplateNode where
  | noSub (text : String) (tmplStart : Nat) (endPos : Nat)
  | subst (headText : String) (headStart : Nat) (spans : List TemplateSpanNode) (endPos : Nat)

/-- The `side` parameter of the mapper (`"start" | "end"`). -/
inductive Side where
  | start
  | stop
  deriving DecidableEq

/-- Foreign length contributed by a span's interpolation: the length of its
folded string value, `0` when unresolved (`resolved?.length ?? 0`). -/
def resolvedLenOf (fuel : Nat) (sf : List Statement) (span : TemplateSpanNode) : Nat :=
  ((resolveStringExpression fuel sf span.expr).map String.length).getD 0

/-- The span-walking loop of `mapCompiledPosToEditor`: each span consumes
the folded-value length of its expression (collapsing hits onto the
expression's host start or end according to `side`) and then its literal
text length (mapped 1:1); past the last span the mapper saturates to
`endPos - 1`. -/
def mapSpansAux (fuel : Nat) (sf : List Statement) (endPos : Nat) (compiledPos : Nat)
    (side : Side) : List TemplateSpanNode → Nat → Nat
  | [], _ => endPos - 1
  | span :: rest, compiledOffset =>
    let resolvedLen := resolvedLenOf fuel sf span
    if compiledPos < compiledOffset + resolvedLen then
      match side with
      | .start => span.exprStart
      | .stop => span.exprEnd
    else
      let afterExpr := compiledOffset + resolvedLen
      if compiledPos < afterExpr + span.litText.length then
        span.litStart + 1 + (compiledPos - afterExpr)
      else
        mapSpansAux fuel sf endPos compiledPos side rest (afterExpr + span.litText.length)

/-- Model of `mapCompiledPosToEditor` (editor diagnostics, lines 14-56): map
a position in the compiled Solidity source back to the corresponding
position in the editor's template literal. -/
def mapCompiledPosToEditor (fuel : Nat) (sf : List Statement) (template : TemplateNode)
    (compiledPos : Nat) (side : Side) : Nat :=
  match template with
  | .noSub _ tmplStart _ => tmplStart + 1 + compiledPos
  | .subst headText headStart spans endPos =>
    if compiledPos < headText.length then headStart + 1 + compiledPos
    else mapSpansAux fuel sf endPos compiledPos side spans headText.length

/-- Foreign length of one whole span: folded-value length plus literal text
length. -/
def spanForeignLen (fuel : Nat) (sf : List Statement) (span : TemplateSpanNode) : Nat :=
  resolvedLenOf fuel sf span + span.litText.length

/-- Total foreign length of a list of spans. -/
def spansForeignLen (fuel : Nat) (sf : List Statement) (spans : List TemplateSpanNode) : Nat :=
  (spans.map (spanForeignLen fuel sf)).sum

lemma mapSpansAux_inside (fuel : Nat) (sf : List Statement) (endPos : Nat) (side : Side) :
    ∀ (spans : List TemplateSpanNode) (i : Nat) (hi : i < spans.length) (off pos : Nat),
      off + spansForeignLen fuel sf (spans.take i) ≤ pos →
      pos < off + spansForeignLen fuel sf (spans.take i)
          + resolvedLenOf fuel sf (spans.get ⟨i, hi⟩) →
      mapSpansAux fuel sf endPos pos side spans off =
        (match side with
         | .start => (spans.get ⟨i, hi⟩).exprStart
         | .stop => (spans.get ⟨i, hi⟩).exprEnd) := by
  intro spans
  induction spans with
  | nil => intro i hi; exact absurd hi (by simp)
  | cons span rest ih =>
    intro i hi off pos hlo hhi
    cases i with
    | zero =>
      have hc : pos < off + resolvedLenOf fuel sf span := by
        simpa [spansForeignLen] using hhi
      simp only [mapSpansAux]
      rw [if_pos hc]
      cases side <;> rfl
    | succ j =>
      have hlo' : off + (resolvedLenOf fuel sf span + span.litText.length
          + spansForeignLen fuel sf (rest.take j)) ≤ pos := by
        simpa [spansForeignLen, spanForeignLen, Nat.add_assoc] using hlo
      have hhi' : pos < off + (resolvedLenOf fuel sf span + span.litText.length
          + spansForeignLen fuel sf (rest.take j))
          + resolvedLenOf fuel sf (rest.get ⟨j, by simpa using hi⟩) := by
        simpa [spansForeignLen, spanForeignLen, Nat.add_assoc] using hhi
      have h1 : ¬ pos < off + resolvedLenOf fuel sf span := by omega
      have h2 : ¬ pos < off + resolvedLenOf fuel sf span + span.litText.length := by omega
      simp only [mapSpansAux]
      rw [if_neg h1, if_neg h2]
      have := ih j (by simpa using hi)
        (off + resolvedLenOf fuel sf span + span.litText.length) pos
        (by omega) (by omega)
      simpa using this

/-- Claim C1: For a template with interpolations, whenever the compiled
(foreign) offset falls inside the region occupied by the `i`-th
interpolation's folded string value, `mapCompiledPosToEditor` returns the
host start of that interpolation expression when `side = start` and the host
end of that expression when `side = end` — never an offset computed inside
the interpolation syntax. -/
theorem mapCompiledPosToEditor_interpolation (fuel : Nat) (sf : List Statement)
    (headText : String) (headStart : Nat) (spans : List TemplateSpanNode) (endPos : Nat)
    (i : Nat) (hi : i < spans.length) (pos : Nat) (side : Side)
    (hlo : headText.length + spansForeignLen fuel sf (spans.take i) ≤ pos)
    (hhi : pos < headText.length + spansForeignLen fuel sf (spans.take i)
        + resolvedLenOf fuel sf (spans.get ⟨i, hi⟩)) :
    mapCompiledPosToEditor fuel sf (.subst headText headStart spans endPos) pos side =
      (match side with
       | .start => (spans.get ⟨i, hi⟩).exprStart
       | .stop => (spans.get ⟨i, hi⟩).exprEnd) := by
  have hhead : ¬ pos < headText.length := by omega
  simp only [mapCompiledPosToEditor]
  rw [if_neg hhead]
  exact mapSpansAux_inside fuel sf endPos side spans i hi headText.length pos hlo hhi

/-- Witness for C1: the spec's example site `` `A${X}B` `` where `X` folds to
`"XX"`; foreign offset 2 lies inside the substituted `"XX"` region and maps
to the expression's host start (13) for `side = start` and host end (14) for
`side = end`. -/
theorem mapCompiledPosToEditor_interpolation_witness :
    mapCompiledPosToEditor 1 [Statement.varStmt true [⟨"X", some (.stringLit "XX")⟩]]
        (.subst "A" 10 [⟨.ident "X", 13, 14, "B", 14⟩] 17) 2 .start = 13 ∧
    mapCompiledPosToEditor 1 [Statement.varStmt true [⟨"X", some (.stringLit "XX")⟩]]
        (.subst "A" 10 [⟨.ident "X", 13, 14, "B", 14⟩] 17) 2 .stop = 14 := by
  constructor
  · exact mapCompiledPosToEditor_interpolation 1 _ "A" 10 _ 17 0 (by simp) 2 .start
      (by simp [spansForeignLen]; decide)
      (by simp [spansForeignLen, resolvedLenOf, resolveStringExpression,
            resolveIdentifierToString, declsLookup]; decide)
  · exact mapCompiledPosToEditor_interpolation 1 _ "A" 10 _ 17 0 (by simp) 2 .stop
      (by simp [spansForeignLen]; decide)
      (by simp [spansForeignLen, resolvedLenOf, resolveStringExpression,
            resolveIdentifierToString, declsLookup]; decide)

/-- Claim C2: For a template without interpolations starting at host offset
`tmplStart` (the opening backtick), for every foreign offset `k` inside the
literal text the mapper is the affine shift `tmplStart + 1 + k` (the `+ 1`
accounting for the backtick). -/
theorem mapCompiledPosToEditor_noSub (fuel : Nat) (sf : List Statement)
    (text : String) (tmplStart endPos k : Nat) (_h : k < text.length) :
    mapCompiledPosToEditor fuel sf (.noSub text tmplStart endPos) k .start =
      tmplStart + 1 + k := rfl

/-- Witness for C2: a concrete no-substitution template at host offset 5;
offset 3 maps to 5 + 1 + 3 = 9. -/
theorem mapCompiledPosToEditor_noSub_witness :
    3 < "contract".length ∧
    mapCompiledPosToEditor 0 [] (.noSub "contract" 5 20) 3 .start = 9 :=
  ⟨by decide, mapCompiledPosToEditor_noSub 0 [] "contract" 5 20 3 (by decide)⟩

mutual

/-- A JSON value, used to model parsed ABI data (`abi: unknown[]`,
`constructorInputs`) flowing through the compiler and codegen. -/
inductive Json where
  | null
  | bool (b : Bool)
  | num (n : Int)
  | str (s : String)
  | arr (elems : JsonList)
  | obj (fields : JsonFields)
  deriving DecidableEq

/-- A list of JSON values (array elements). -/
inductive JsonList where
  | nil
  | cons (head : Json) (tail : JsonList)
  deriving DecidableEq

/-- Ordered key/value fields of a JSON object. -/
inductive JsonFields where
  | nil
  | cons (key : String) (value : Json) (tail : JsonFields)
  deriving DecidableEq

end

/-- Optimizer settings of `SolcInputOptions` (`src/solc.ts`), with optional
fields modelled as `Option`. -/
structure OptimizerOptions where
  enabled : Option Bool
  runs : Option Nat
  deriving DecidableEq

/-- `SolcInputOptions` (`src/solc.ts`): optional optimizer settings. -/
structure SolcInputOptions where
  optimizer : Option OptimizerOptions
  deriving DecidableEq

/-- `JSON.stringify` of an `OptimizerOptions` value, with `undefined`
fields dropped.  The embedding fixes the `enabled`-before-`runs` field
order; `JSON.stringify` is deterministic for a fixed object value, which is
all the cache-key claims rely on. -/
def serializeOptimizer (o : OptimizerOptions) : String :=
  match o.enabled, o.runs with
  | none, none => "\x7b\x7d"
  | some b, none => "\x7b\"enabled\":" ++ (if b then "true" else "false") ++ "\x7d"
  | none, some r => "\x7b\"runs\":" ++ toString r ++ "\x7d"
  | some b, some r =>
    "\x7b\"enabled\":" ++ (if b then "true" else "false") ++ ",\"runs\":" ++ toString r ++ "\x7d"

/-- `JSON.stringify(options ?? {})` as used by `hashSource`
(`src/runtime/compiler.ts` line 66). -/
def serializeOptions : Option SolcInputOptions → String
  | none => "\x7b\x7d"
  | some ⟨none⟩ => "\x7b\x7d"
  | some ⟨some o⟩ => "\x7b\"optimizer\":" ++ serializeOptimizer o ++ "\x7d"

/-- One entry of solc's `errors` array. -/
structure SolcError where
  severity : String
  message : String
  formattedMessage : String
  sourceLocation : Option (String × Nat × Nat)
  deriving DecidableEq

/-- Per-contract solc output: `abi`, `evm.bytecode.object`,
`evm.deployedBytecode.object`. -/
structure SolcContractOutput where
  abi : Json
  bytecodeObject : String
  deployedBytecodeObject : String
  deriving DecidableEq

/-- Solc standard-JSON output: optional `contracts` (file name to contract
name to output, enumeration in insertion order) and optional `errors`. -/
structure SolcStandardOutput where
  contracts : Option (List (String × List (String × SolcContractOutput)))
  errors : Option (List SolcError)
  deriving DecidableEq

/-- A normalized diagnostic (`SolcDiagnostic`, `src/runtime/compiler.ts`
lines 43-52). -/
structure SolcDiagnostic where
  severity : String
  message : String
  formattedMessage : String
  sourceLocation : Option (String × Nat × Nat)
  deriving DecidableEq

/-- Model of `toDiagnostics` (`src/runtime/compiler.ts` lines 103-110). -/
def toDiagnostics (errors : Option (List SolcError)) : List SolcDiagnostic :=
  (errors.getD []).map fun e => ⟨e.severity, e.message, e.formattedMessage, e.sourceLocation⟩

/-- A compiled contract artifact (`CompiledContract`,
`src/runtime/compiler.ts` lines 33-39). -/
structure CompiledContract where
  abi : Json
  deployedBytecode : String
  bytecode : String
  deriving DecidableEq

/-- `CompilationResult`: a JavaScript object keyed by contract name,
modelled as an association list in insertion order. -/
abbrev CompilationResult := List (String × CompiledContract)

/-- JavaScript object/`Map` property read: the value stored under `key`. -/
def objLookup {α : Type} : List (String × α) → String → Option α
  | [], _ => none
  | (k, v) :: rest, key => if k = key then some v else objLookup rest key

/-- JavaScript object/`Map` property write (`result[name] = value`,
`map.set`): overwrite the value in place when the key exists, append
otherwise, preserving insertion order. -/
def objSet {α : Type} : List (String × α) → String → α → List (String × α)
  | [], key, v => [(key, v)]
  | (k, w) :: rest, key, v =>
    if k = key then (k, v) :: rest else (k, w) :: objSet rest key v

lemma objLookup_objSet_self {α : Type} (m : List (String × α)) (key : String) (v : α) :
    objLookup (objSet m key v) key = some v := by
  induction m with
  | nil => simp [objSet, objLookup]
  | cons p rest ih =>
    obtain ⟨k, w⟩ := p
    by_cases hk : k = key
    · simp [objSet, objLookup, hk]
    · simp [objSet, objLookup, hk, ih]

/-- Build the `CompilationResult` from solc's `contracts` output
(`src/runtime/compiler.ts` lines 85-97): iterate files, then contracts,
assigning `result[contractName]` with `0x`-prefixed bytecodes. -/
def buildCompilationResult
    (contracts : Option (List (String × List (String × SolcContractOutput)))) :
    CompilationResult :=
  (contracts.getD []).foldl
    (fun acc fileEntry =>
      fileEntry.2.foldl
        (fun acc2 ce =>
          objSet acc2 ce.1
            ⟨ce.2.abi, "0x" ++ ce.2.deployedBytecodeObject, "0x" ++ ce.2.bytecodeObject⟩)
        acc)
    []

/-- The payload of a thrown `SolCompilationError`
(`src/runtime/compiler.ts` lines 54-60): the error-severity diagnostics. -/
structure SolCompilationErrorData where
  errors : List SolcDiagnostic
  deriving DecidableEq

/-- The deterministic external collaborators of `compile`: the source hash
(`keccak256(toHex(...))`) and the solc invocation
(`JSON.parse(solc.compile(JSON.stringify(buildSolcInput(source, options))))`). -/
structure CompilerEnv where
  keccakHex : String → String
  solcRun : String → Option SolcInputOptions → SolcStandardOutput

/-- Model of `hashSource` (`src/runtime/compiler.ts` lines 65-67). -/
def hashSource (env : CompilerEnv) (source : String) (options : Option SolcInputOptions) :
    String :=
  env.keccakHex (source ++ serializeOptions options)

/-- The mutable module state of `src/runtime/compiler.ts`: the compilation
cache, plus an instrumentation counter of foreign-compiler invocations. -/
structure CompilerState where
  cache : List (String × CompilationResult)
  solcCalls : Nat
  deriving DecidableEq

/-- Model of `compile` (`src/runtime/compiler.ts` lines 69-101): check the
cache by content hash; on a miss invoke solc, throw a
`SolCompilationError` when any error-severity diagnostic is present
(leaving the cache untouched), otherwise build, cache and return the
artifact record. -/
def compile (env : CompilerEnv) (source : String) (options : Option SolcInputOptions)
    (st : CompilerState) :
    Except SolCompilationErrorData CompilationResult × CompilerState :=
  match objLookup st.cache (hashSource env source options) with
  | some cached => (Except.ok cached, st)
  | none =>
    let output := env.solcRun source options
    let errors := (toDiagnostics output.errors).filter (fun d => d.severity == "error")
    if 0 < errors.length then
      (Except.error ⟨errors⟩, ⟨st.cache, st.solcCalls + 1⟩)
    else
      (Except.ok (buildCompilationResult output.contracts),
       ⟨objSet st.cache (hashSource env source options) (buildCompilationResult output.contracts),
        st.solcCalls + 1⟩)

/-- Claim C3: Once a call to `compile` with a given source and options has
succeeded, calling `compile` again with the same source and options in the
resulting state returns the very artifact stored by the first call and
leaves the state — including the count of solc invocations — unchanged. -/
theorem compile_idempotent (env : CompilerEnv) (source : String)
    (options : Option SolcInputOptions) (st : CompilerState) (r : CompilationResult)
    (st1 : CompilerState)
    (h : compile env source options st = (Except.ok r, st1)) :
    compile env source options st1 = (Except.ok r, st1) := by
  unfold compile at h ⊢
  cases hl : objLookup st.cache (hashSource env source options) with
  | some cached =>
    rw [hl] at h
    simp only [Prod.mk.injEq, Except.ok.injEq] at h
    obtain ⟨hr, hst⟩ := h
    subst hr
    subst hst
    rw [hl]
  | none =>
    rw [hl] at h
    simp only at h
    split at h
    · simp at h
    · simp only [Prod.mk.injEq, Except.ok.injEq] at h
      obtain ⟨hr, hst⟩ := h
      subst hr
      subst hst
      rw [objLookup_objSet_self]

/-- Witness for C3: a concrete environment and an initially empty cache;
the second call returns the cached artifact with the state unchanged. -/
theorem compile_idempotent_witness :
    compile ⟨fun s => s, fun _ _ => ⟨some [("inline.sol", [("C", ⟨Json.null, "bc", "de"⟩)])], none⟩⟩
        "src" none
        ⟨[("src\x7b\x7d", [("C", ⟨Json.null, "0xde", "0xbc"⟩)])], 1⟩ =
      (Except.ok [("C", ⟨Json.null, "0xde", "0xbc"⟩)],
       ⟨[("src\x7b\x7d", [("C", ⟨Json.null, "0xde", "0xbc"⟩)])], 1⟩) :=
  compile_idempotent
    ⟨fun s => s, fun _ _ => ⟨some [("inline.sol", [("C", ⟨Json.null, "bc", "de"⟩)])], none⟩⟩
    "src" none ⟨[], 0⟩ [("C", ⟨Json.null, "0xde", "0xbc"⟩)]
    ⟨[("src\x7b\x7d", [("C", ⟨Json.null, "0xde", "0xbc"⟩)])], 1⟩ rfl

/-- Claim C4: When the key is not cached and the foreign-compiler output
contains at least one error-severity diagnostic, `compile` throws a
`SolCompilationError` carrying exactly the error-severity diagnostics, and
the cache is left unchanged (no artifact is stored). -/
theorem compile_error_spec (env : CompilerEnv) (source : String)
    (options : Option SolcInputOptions) (st : CompilerState)
    (hfresh : objLookup st.cache (hashSource env source options) = none)
    (herr : 0 < ((toDiagnostics (env.solcRun source options).errors).filter
        (fun d => d.severity == "error")).length) :
    compile env source options st =
      (Except.error ⟨(toDiagnostics (env.solcRun source options).errors).filter
          (fun d => d.severity == "error")⟩,
       ⟨st.cache, st.solcCalls + 1⟩) := by
  unfold compile
  rw [hfresh]
  simp only
  rw [if_pos herr]

/-- Witness for C4: a compiler producing one error and one warning; the
thrown payload contains exactly the error-severity diagnostic and the
cache stays empty. -/
theorem compile_error_spec_witness :
    compile ⟨fun s => s,
        fun _ _ => ⟨none, some [⟨"error", "boom", "f", none⟩, ⟨"warning", "meh", "g", none⟩]⟩⟩
        "bad" none ⟨[], 0⟩ =
      (Except.error ⟨[⟨"error", "boom", "f", none⟩]⟩, ⟨[], 1⟩) :=
  compile_error_spec
    ⟨fun s => s,
     fun _ _ => ⟨none, some [⟨"error", "boom", "f", none⟩, ⟨"warning", "meh", "g", none⟩]⟩⟩
    "bad" none ⟨[], 0⟩ (by decide) (by decide)

/-- `ContractTypeEntry` (`src/codegen.ts` lines 189-193): contract name plus
the signature-defining fields (`constructorInputs`, `abi`), modelled as
parsed JSON values. -/
structure ContractTypeEntry where
  contractName : String
  constructorInputs : Json
  abi : Json
  deriving DecidableEq

instance : Inhabited ContractTypeEntry := ⟨⟨"", Json.null, Json.null⟩⟩

/-- The duplicate-detection fingerprint
`JSON.stringify({constructorInputs, abi})`, modelled as the JSON value
itself; `JSON.stringify` is injective on these parsed-JSON values, so the
set of fingerprint strings has the same cardinality as the set of values. -/
def fingerprint (e : ContractTypeEntry) : Json :=
  .obj (.cons "constructorInputs" e.constructorInputs (.cons "abi" e.abi .nil))

/-- One grouping step of `generateDeclarationContent` (`src/codegen.ts`
lines 213-220): `byName.get(name)` then `existing.push(entry)` or
`byName.set(name, [entry])`. -/
def byNameStep (m : List (String × List ContractTypeEntry)) (e : ContractTypeEntry) :
    List (String × List ContractTypeEntry) :=
  match objLookup m e.contractName with
  | some g => objSet m e.contractName (g ++ [e])
  | none => objSet m e.contractName [e]

/-- The insertion-ordered `byName` map of `generateDeclarationContent`. -/
def buildByName (entries : List ContractTypeEntry) :
    List (String × List ContractTypeEntry) :=
  entries.foldl byNameStep []

/-- The outcome of `generateDeclarationContent` relevant to grouping:
`unique` is the canonical (first-of-group) entry list, in first-occurrence
order, from which the declaration text is serialized; `duplicates` is the
reported name list.  The literal `.d.ts` text assembly is not modelled. -/
structure GenerationResult where
  unique : List ContractTypeEntry
  duplicates : List String
  deriving DecidableEq

/-- Model of the grouping and duplicate-detection logic of
`generateDeclarationContent` (`src/codegen.ts` lines 208-236): group
entries by `contractName` (insertion-ordered map), keep `group[0]` per
group, and flag a name when its group has more than one entry and more
than one distinct fingerprint. -/
def generateDeclarationContent (entries : List ContractTypeEntry) : GenerationResult :=
  if entries.length = 0 then ⟨[], []⟩
  else
    let byName := buildByName entries
    ⟨byName.map (fun p => p.2.headI),
     byName.filterMap (fun p =>
       if 1 < p.2.length ∧ 1 < ((p.2.map fingerprint).dedup).length then some p.1 else none)⟩

/-- The entries carrying a given contract name, in scan order. -/
def groupOf (entries : List ContractTypeEntry) (name : String) : List ContractTypeEntry :=
  entries.filter (fun e => e.contractName == name)

lemma objLookup_objSet_ne {α : Type} (m : List (String × α)) (key name : String) (v : α)
    (h : name ≠ key) : objLookup (objSet m key v) name = objLookup m name := by
  induction m with
  | nil => simp [objSet, objLookup, Ne.symm h]
  | cons p rest ih =>
    obtain ⟨k, w⟩ := p
    by_cases hk : k = key
    · subst hk
      simp [objSet, objLookup, Ne.symm h]
    · by_cases hn : k = name
      · simp [objSet, objLookup, hk, hn, h]
      · simp [objSet, objLookup, hk, hn, ih]

lemma objLookup_eq_none_iff {α : Type} (m : List (String × α)) (name : String) :
    objLookup m name = none ↔ name ∉ m.map Prod.fst := by
  induction m with
  | nil => simp [objLookup]
  | cons p rest ih =>
    obtain ⟨k, w⟩ := p
    by_cases hk : k = name
    · simp [objLookup, hk]
    · simp [objLookup, hk, ih, Ne.symm hk]

lemma objLookup_mem {α : Type} {m : List (String × α)} {k : String} {v : α}
    (h : objLookup m k = some v) : (k, v) ∈ m := by
  induction m with
  | nil => simp [objLookup] at h
  | cons p rest ih =>
    obtain ⟨k', w⟩ := p
    by_cases hk : k' = k
    · rw [objLookup, if_pos hk] at h
      have hwv : w = v := by injection h
      refine List.mem_cons.mpr (Or.inl ?_)
      rw [← hk, hwv]
    · rw [objLookup, if_neg hk] at h
      exact List.mem_cons_of_mem _ (ih h)

lemma mem_objLookup {α : Type} {m : List (String × α)} (hnd : (m.map Prod.fst).Nodup)
    {k : String} {v : α} (h : (k, v) ∈ m) : objLookup m k = some v := by
  induction m with
  | nil => simp at h
  | cons p rest ih =>
    obtain ⟨k', w⟩ := p
    simp only [List.map_cons, List.nodup_cons] at hnd
    rcases List.mem_cons.mp h with h1 | h1
    · cases h1
      rw [objLookup]
      simp
    · have hk : k ∈ rest.map Prod.fst := List.mem_map.mpr ⟨(k, v), h1, rfl⟩
      have hp : k' ≠ k := fun he => hnd.1 (he ▸ hk)
      rw [objLookup, if_neg hp]
      exact ih hnd.2 h1

lemma objSet_keys {α : Type} (m : List (String × α)) (key : String) (v : α) :
    (objSet m key v).map Prod.fst =
      if key ∈ m.map Prod.fst then m.map Prod.fst else m.map Prod.fst ++ [key] := by
  induction m with
  | nil => simp [objSet]
  | cons p rest ih =>
    obtain ⟨k, w⟩ := p
    by_cases hk : k = key
    · simp [objSet, hk]
    · by_cases hmem : key ∈ rest.map Prod.fst
      · simp [objSet, hk, ih, hmem, Ne.symm hk]
      · simp [objSet, hk, ih, hmem, Ne.symm hk]

lemma byNameStep_lookup (m : List (String × List ContractTypeEntry)) (e : ContractTypeEntry)
    (name : String) :
    objLookup (byNameStep m e) name =
      if name = e.contractName then
        match objLookup m e.contractName with
        | some g => some (g ++ [e])
        | none => some [e]
      else objLookup m name := by
  rw [byNameStep]
  cases hl : objLookup m e.contractName with
  | some g =>
    by_cases h : name = e.contractName
    · rw [if_pos h, h, objLookup_objSet_self]
    · rw [if_neg h, objLookup_objSet_ne _ _ _ _ h]
  | none =>
    by_cases h : name = e.contractName
    · rw [if_pos h, h, objLookup_objSet_self]
    · rw [if_neg h, objLookup_objSet_ne _ _ _ _ h]

lemma byNameStep_keys_nodup (m : List (String × List ContractTypeEntry))
    (e : ContractTypeEntry) (hnd : (m.map Prod.fst).Nodup) :
    ((byNameStep m e).map Prod.fst).Nodup := by
  rw [byNameStep]
  cases hl : objLookup m e.contractName with
  | some g =>
    have hmem : e.contractName ∈ m.map Prod.fst :=
      List.mem_map.mpr ⟨(e.contractName, g), objLookup_mem hl, rfl⟩
    rw [objSet_keys, if_pos hmem]
    exact hnd
  | none =>
    have hmem : e.contractName ∉ m.map Prod.fst := (objLookup_eq_none_iff m _).mp hl
    rw [objSet_keys, if_neg hmem]
    refine List.nodup_append.mpr ⟨hnd, List.nodup_singleton _, ?_⟩
    intro a ha hb
    simp only [List.mem_singleton] at hb
    exact hmem (hb ▸ ha)

lemma groupOf_cons (e : ContractTypeEntry) (rest : List ContractTypeEntry) (name : String) :
    groupOf (e :: rest) name =
      if e.contractName = name then e :: groupOf rest name else groupOf rest name := by
  by_cases h : e.contractName = name
  · simp [groupOf, List.filter, h]
  · have hb : (e.contractName == name) = false := by simp [h]
    simp [groupOf, List.filter, hb, h]

lemma foldl_byNameStep_lookup (entries : List ContractTypeEntry) :
    ∀ (m : List (String × List ContractTypeEntry)) (name : String),
      objLookup (entries.foldl byNameStep m) name =
        match objLookup m name with
        | some g => some (g ++ groupOf entries name)
        | none => if groupOf entries name = [] then none else some (groupOf entries name) := by
  induction entries with
  | nil =>
    intro m name
    cases hl : objLookup m name <;> simp [groupOf, hl]
  | cons e rest ih =>
    intro m name
    rw [List.foldl_cons, ih (byNameStep m e) name, byNameStep_lookup, groupOf_cons]
    by_cases h : name = e.contractName
    · rw [if_pos h, if_pos h.symm, ← h]
      cases hl : objLookup m name with
      | some g => simp
      | none => simp
    · have h2 : e.contractName ≠ name := fun he => h he.symm
      rw [if_neg h, if_neg h2]

lemma buildByName_keys_nodup (entries : List ContractTypeEntry) :
    ((buildByName entries).map Prod.fst).Nodup := by
  rw [buildByName]
  have : ∀ (m : List (String × List ContractTypeEntry)), (m.map Prod.fst).Nodup →
      ((entries.foldl byNameStep m).map Prod.fst).Nodup := by
    induction entries with
    | nil => intro m hm; simpa using hm
    | cons e rest ih =>
      intro m hm
      rw [List.foldl_cons]
      exact ih _ (byNameStep_keys_nodup m e hm)
  exact this [] (by simp)

lemma buildByName_lookup (entries : List ContractTypeEntry) (name : String) :
    objLookup (buildByName entries) name =
      if groupOf entries name = [] then none else some (groupOf entries name) := by
  rw [buildByName, foldl_byNameStep_lookup entries [] name]
  simp [objLookup]

lemma nodup_all_eq_length_le_one {α : Type} {l : List α} (hnd : l.Nodup)
    (hall : ∀ a ∈ l, ∀ b ∈ l, a = b) : l.length ≤ 1 := by
  cases l with
  | nil => simp
  | cons x t =>
    cases t with
    | nil => simp
    | cons y t2 =>
      exfalso
      have hxy : x = y := hall x (by simp) y (by simp)
      rcases List.nodup_cons.mp hnd with ⟨hx, -⟩
      refine hx ?_
      rw [hxy]
      exact List.mem_cons_self y t2

lemma dedup_length_le_one_iff {α : Type} [DecidableEq α] (l : List α) :
    l.dedup.length ≤ 1 ↔ ∀ a ∈ l, ∀ b ∈ l, a = b := by
  constructor
  · intro h a ha b hb
    have ha' : a ∈ l.dedup := List.mem_dedup.mpr ha
    have hb' : b ∈ l.dedup := List.mem_dedup.mpr hb
    cases hd : l.dedup with
    | nil =>
      rw [hd] at ha'
      exact absurd ha' (by simp)
    | cons x t2 =>
      cases t2 with
      | nil =>
        rw [hd] at ha' hb'
        simp only [List.mem_singleton] at ha' hb'
        rw [ha', hb']
      | cons y t3 =>
        rw [hd] at h
        exact absurd h (by simp)
  · intro hall
    refine nodup_all_eq_length_le_one l.nodup_dedup ?_
    intro a ha b hb
    exact hall a (List.mem_dedup.mp ha) b (List.mem_dedup.mp hb)

lemma one_lt_dedup_length_iff {α : Type} [DecidableEq α] (l : List α) :
    1 < l.dedup.length ↔ ∃ a ∈ l, ∃ b ∈ l, a ≠ b := by
  rw [← not_iff_not]
  push_neg
  exact dedup_length_le_one_iff l

lemma headI_mem {α : Type} [Inhabited α] {l : List α} (h : l ≠ []) : l.headI ∈ l := by
  cases l with
  | nil => exact absurd rfl h
  | cons a t => simp

lemma one_lt_length_of_mem_ne {α : Type} {l : List α} {a b : α} (ha : a ∈ l) (hb : b ∈ l)
    (hne : a ≠ b) : 1 < l.length := by
  cases l with
  | nil => simp at ha
  | cons x t =>
    cases t with
    | nil =>
      simp only [List.mem_singleton] at ha hb
      exact absurd (ha.trans hb.symm) hne
    | cons y t2 => simp

lemma dupCondition_iff (g : List ContractTypeEntry) :
    (1 < g.length ∧ 1 < ((g.map fingerprint).dedup).length) ↔
      ∃ e₁ ∈ g, ∃ e₂ ∈ g, fingerprint e₁ ≠ fingerprint e₂ := by
  constructor
  · rintro ⟨-, hd⟩
    rcases (one_lt_dedup_length_iff _).mp hd with ⟨a, ha, b, hb, hab⟩
    rcases List.mem_map.mp ha with ⟨e₁, he₁, rfl⟩
    rcases List.mem_map.mp hb with ⟨e₂, he₂, rfl⟩
    exact ⟨e₁, he₁, e₂, he₂, hab⟩
  · rintro ⟨e₁, he₁, e₂, he₂, hne⟩
    refine ⟨one_lt_length_of_mem_ne he₁ he₂ (fun he => hne (he ▸ rfl)), ?_⟩
    exact (one_lt_dedup_length_iff _).mpr
      ⟨fingerprint e₁, List.mem_map_of_mem _ he₁, fingerprint e₂, List.mem_map_of_mem _ he₂, hne⟩

lemma duplicates_count (m : List (String × List ContractTypeEntry)) (name : String)
    (hnd : (m.map Prod.fst).Nodup) :
    (m.filterMap (fun p =>
        if 1 < p.2.length ∧ 1 < ((p.2.map fingerprint).dedup).length then some p.1
        else none)).count name
      = match objLookup m name with
        | some g => if 1 < g.length ∧ 1 < ((g.map fingerprint).dedup).length then 1 else 0
        | none => 0 := by
  induction m with
  | nil => simp [objLookup]
  | cons p rest ih =>
    obtain ⟨k, g⟩ := p
    simp only [List.map_cons, List.nodup_cons] at hnd
    by_cases hp : k = name
    · have hrest : objLookup rest name = none :=
        (objLookup_eq_none_iff rest name).mpr (hp ▸ hnd.1)
      have hc := ih hnd.2
      rw [hrest] at hc
      rw [objLookup, if_pos hp]
      by_cases hcond : 1 < g.length ∧ 1 < ((g.map fingerprint).dedup).length
      · simp [List.filterMap_cons, hcond, hp, hc, List.count_cons]
      · simp [List.filterMap_cons, hcond, hc]
    · have hc := ih hnd.2
      rw [objLookup, if_neg hp]
      by_cases hcond : 1 < g.length ∧ 1 < ((g.map fingerprint).dedup).length
      · simpa [List.filterMap_cons, hcond, List.count_cons, hp] using hc
      · simpa [List.filterMap_cons, hcond] using hc

/-- Claim C7: `generateDeclarationContent` groups entries by contract name:
the reported duplicates list contains a name exactly once if and only if
that name's group has two entries with differing signature fingerprints
(so two entries with the same name and identical signature produce no
duplicate report), and every canonical entry kept is the first entry of
its name's group in scan order (and each nonempty group contributes its
first entry). -/
theorem generateDeclarationContent_spec (entries : List ContractTypeEntry) (name : String) :
    ((generateDeclarationContent entries).duplicates.count name =
      if ∃ e₁ ∈ groupOf entries name, ∃ e₂ ∈ groupOf entries name,
          fingerprint e₁ ≠ fingerprint e₂ then 1 else 0) ∧
    (groupOf entries name ≠ [] →
      (groupOf entries name).headI ∈ (generateDeclarationContent entries).unique) ∧
    (∀ e ∈ (generateDeclarationContent entries).unique,
      e = (groupOf entries e.contractName).headI) := by
  by_cases hE : entries.length = 0
  · have hnil : entries = [] := List.length_eq_zero.mp hE
    subst hnil
    refine ⟨?_, ?_, ?_⟩
    · simp [generateDeclarationContent, groupOf]
    · intro hcon
      simp [groupOf] at hcon
    · intro e he
      simp [generateDeclarationContent] at he
  · have hgen : generateDeclarationContent entries =
        ⟨(buildByName entries).map (fun p => p.2.headI),
         (buildByName entries).filterMap (fun p =>
           if 1 < p.2.length ∧ 1 < ((p.2.map fingerprint).dedup).length then some p.1
           else none)⟩ := by
      rw [generateDeclarationContent, if_neg hE]
    refine ⟨?_, ?_, ?_⟩
    · rw [hgen]
      simp only
      rw [duplicates_count _ _ (buildByName_keys_nodup entries), buildByName_lookup]
      by_cases hg : groupOf entries name = []
      · rw [if_pos hg]
        simp [hg]
      · rw [if_neg hg]
        simp only
        by_cases hcond : ∃ e₁ ∈ groupOf entries name, ∃ e₂ ∈ groupOf entries name,
            fingerprint e₁ ≠ fingerprint e₂
        · rw [if_pos ((dupCondition_iff _).mpr hcond), if_pos hcond]
        · rw [if_neg (fun hc => hcond ((dupCondition_iff _).mp hc)), if_neg hcond]
    · intro hne
      rw [hgen]
      simp only
      have hl : objLookup (buildByName entries) name = some (groupOf entries name) := by
        rw [buildByName_lookup, if_neg hne]
      exact List.mem_map.mpr ⟨(name, groupOf entries name), objLookup_mem hl, rfl⟩
    · intro e he
      rw [hgen] at he
      simp only at he
      rcases List.mem_map.mp he with ⟨⟨k, g⟩, hmem, hmap⟩
      have hne : g.headI = e := hmap
      have hl : objLookup (buildByName entries) k = some g :=
        mem_objLookup (buildByName_keys_nodup entries) hmem
      rw [buildByName_lookup] at hl
      by_cases hg : groupOf entries k = []
      · rw [if_pos hg] at hl
        exact absurd hl (by simp)
      · rw [if_neg hg] at hl
        have hgk : g = groupOf entries k := by
          injection hl with hl'
          exact hl'.symm
        have hEg : e ∈ groupOf entries k := by
          rw [← hne, hgk]
          exact headI_mem hg
        have hname : e.contractName = k := by
          have h3 : e ∈ entries.filter (fun x => x.contractName == k) := by
            simpa [groupOf] using hEg
          have h4 := (List.mem_filter.mp h3).2
          simpa using h4
        rw [hname, ← hgk, ← hne]

/-- Witness for C7: two same-named entries with differing signatures are
reported exactly once and the first one is canonical; two same-named
entries with identical signatures produce no duplicate report. -/
theorem generateDeclarationContent_spec_witness :
    (generateDeclarationContent
        [⟨"Lens", Json.num 1, Json.num 1⟩, ⟨"Lens", Json.num 2, Json.num 2⟩]).duplicates.count
        "Lens" = 1 ∧
    (generateDeclarationContent
        [⟨"Lens", Json.num 1, Json.num 1⟩, ⟨"Lens", Json.num 1, Json.num 1⟩]).duplicates.count
        "Lens" = 0 ∧
    (⟨"Lens", Json.num 1, Json.num 1⟩ : ContractTypeEntry) ∈
      (generateDeclarationContent
        [⟨"Lens", Json.num 1, Json.num 1⟩, ⟨"Lens", Json.num 2, Json.num 2⟩]).unique := by
  refine ⟨?_, ?_, ?_⟩
  · rw [(generateDeclarationContent_spec
        [⟨"Lens", Json.num 1, Json.num 1⟩, ⟨"Lens", Json.num 2, Json.num 2⟩] "Lens").1]
    rw [if_pos (by decide)]
  · rw [(generateDeclarationContent_spec
        [⟨"Lens", Json.num 1, Json.num 1⟩, ⟨"Lens", Json.num 1, Json.num 1⟩] "Lens").1]
    rw [if_neg (by decide)]
  · have h := (generateDeclarationContent_spec
        [⟨"Lens", Json.num 1, Json.num 1⟩, ⟨"Lens", Json.num 2, Json.num 2⟩] "Lens").2.1
        (by decide)
    simpa [groupOf, List.filter] using h

/-- The callee of a call expression used as a template tag: an identifier
(`tag.expression` with its text) or any other expression. -/
inductive Callee where
  | ident (text : String)
  | otherCallee

/-- One argument of a call expression: a string literal or anything else. -/
inductive TagArg where
  | stringLit (text : String)
  | otherArg
  deriving DecidableEq

/-- A template tag expression: a bare identifier, a call expression, or any
other shape. -/
inductive TagNode where
  | identTag (text : String)
  | callTag (callee : Callee) (args : List TagArg)
  | otherTag

/-- Model of `isSolTag` (`src/ast-utils.ts` lines 26-37): the tag is
recognized exactly when it is a call expression whose callee is the
identifier `sol` applied to exactly one string-literal argument; the
argument's text is the contract name.  Every other shape (including a bare
`sol` identifier) yields `false`, modelled as `none`. -/
def isSolTag : TagNode → Option String
  | .callTag callee args =>
    match callee with
    | .ident calleeText =>
      if calleeText = "sol" then
        match args with
        | [arg] =>
          match arg with
          | .stringLit text => some text
          | .otherArg => none
        | _ => none
      else none
    | .otherCallee => none
  | _ => none

/-- Counterexample to C9 as stated: the bare `sol` marker is rejected by
the recognizer (the current code supports only the `sol("Name")` factory
form; the test suite asserts that the plain form is no longer supported),
so no unnamed embedding site is produced. -/
theorem isSolTag_bare_rejected : isSolTag (.identTag "sol") = none := rfl

/-- Claim C9, amended: The recognizer accepts exactly one marker shape:
`sol` invoked with exactly one string-literal argument, producing a named
site whose name is the argument's text; every other tag shape — including
the bare `sol` marker — is rejected. -/
theorem isSolTag_spec (tag : TagNode) (name : String) :
    isSolTag tag = some name ↔ tag = .callTag (.ident "sol") [.stringLit name] := by
  constructor
  · intro h
    cases tag with
    | identTag t => simp [isSolTag] at h
    | otherTag => simp [isSolTag] at h
    | callTag callee args =>
      cases callee with
      | otherCallee => simp [isSolTag] at h
      | ident t =>
        by_cases ht : t = "sol"
        · subst ht
          match args with
          | [] => simp [isSolTag] at h
          | [TagArg.stringLit s] =>
            simp [isSolTag] at h
            rw [h]
          | [TagArg.otherArg] => simp [isSolTag] at h
          | a :: b :: rest => simp [isSolTag] at h
        · simp [isSolTag, ht] at h
  · intro h
    subst h
    simp [isSolTag]

/-- `x.replace("0x", "")` on the character list: drop the first occurrence
of the substring `0x` (viem's `concat` strips the prefix this way). -/
def removeFirstOx : List Char → List Char
  | [] => []
  | '0' :: 'x' :: rest => rest
  | c :: rest => c :: removeFirstOx rest

/-- viem `concat` on hex strings: `0x` followed by every value with its
first `0x` removed, in order. -/
def hexConcat (xs : List String) : String :=
  "0x" ++ String.join (xs.map (fun x => String.mk (removeFirstOx x.toList)))

/-- The `bytecodes` list of `hashArtifacts`: contract names sorted
(`Object.keys(artifacts).sort()`), each mapped to its artifact's
`deployedBytecode`. -/
def sortedDeployedBytecodes (artifacts : CompilationResult) : List String :=
  ((artifacts.map Prod.fst).mergeSort (fun a b => a ≤ b)).map
    (fun name =>
      match objLookup artifacts name with
      | some c => c.deployedBytecode
      | none => "")

/-- Model of `hashArtifacts`: keccak256 of the concatenated deployed
bytecodes in sorted-name order, or of the empty byte string `0x` when the
artifact map is empty.  `keccak` stands for the external `keccak256`. -/
def hashArtifacts (keccak : String → String) (artifacts : CompilationResult) : String :=
  keccak
    (if 0 < (sortedDeployedBytecodes artifacts).length
     then hexConcat (sortedDeployedBytecodes artifacts)
     else "0x")

lemma perm_objLookup {α : Type} {m₁ m₂ : List (String × α)} (hp : m₁.Perm m₂) :
    (m₁.map Prod.fst).Nodup → ∀ n, objLookup m₁ n = objLookup m₂ n := by
  induction hp with
  | nil => intro _ n; rfl
  | cons x h ih =>
    intro hnd n
    obtain ⟨k, v⟩ := x
    simp only [List.map_cons, List.nodup_cons] at hnd
    rw [objLookup, objLookup]
    by_cases hk : k = n
    · rw [if_pos hk, if_pos hk]
    · rw [if_neg hk, if_neg hk]
      exact ih hnd.2 n
  | swap x y l =>
    intro hnd n
    obtain ⟨k₁, v₁⟩ := x
    obtain ⟨k₂, v₂⟩ := y
    simp only [List.map_cons, List.nodup_cons, List.mem_cons] at hnd
    have hk12 : k₂ ≠ k₁ := fun he => hnd.1 (Or.inl he)
    by_cases h1 : k₂ = n
    · have h2 : k₁ ≠ n := fun he => hk12 (h1.trans he.symm)
      simp [objLookup, h1, h2]
    · by_cases h2 : k₁ = n
      · simp [objLookup, h1, h2]
      · simp [objLookup, h1, h2]
  | trans h₁ h₂ ih₁ ih₂ =>
    intro hnd n
    refine (ih₁ hnd n).trans (ih₂ ?_ n)
    exact ((h₁.map Prod.fst).nodup_iff).mp hnd

lemma sortedDeployedBytecodes_perm {a₁ a₂ : CompilationResult}
    (hnd : (a₁.map Prod.fst).Nodup) (hp : a₁.Perm a₂) :
    sortedDeployedBytecodes a₁ = sortedDeployedBytecodes a₂ := by
  have hkeys : (a₁.map Prod.fst).Perm (a₂.map Prod.fst) := hp.map Prod.fst
  have hsorted : (a₁.map Prod.fst).mergeSort (fun a b => a ≤ b) =
      (a₂.map Prod.fst).mergeSort (fun a b => a ≤ b) := by
    apply List.eq_of_perm_of_sorted (r := (· ≤ · : String → String → Prop))
    · exact ((a₁.map Prod.fst).mergeSort_perm _).trans
        (hkeys.trans ((a₂.map Prod.fst).mergeSort_perm _).symm)
    · exact List.sorted_mergeSort' _
    · exact List.sorted_mergeSort' _
  rw [sortedDeployedBytecodes, sortedDeployedBytecodes, hsorted]
  refine List.map_congr_left ?_
  intro name _
  rw [perm_objLookup hp hnd name]

/-- Claim C10: `hashArtifacts` is invariant under the enumeration/insertion
order of the artifact map: two compilation results holding the same
name-to-artifact associations (a permutation of one another, with distinct
names) hash identically, since names are sorted before the deployed
bytecodes are concatenated; and the empty artifact map hashes the empty
byte string `0x`. -/
theorem hashArtifacts_spec :
    (∀ (keccak : String → String) (a₁ a₂ : CompilationResult),
      (a₁.map Prod.fst).Nodup → a₁.Perm a₂ →
      hashArtifacts keccak a₁ = hashArtifacts keccak a₂) ∧
    (∀ keccak : String → String, hashArtifacts keccak [] = keccak "0x") := by
  constructor
  · intro keccak a₁ a₂ hnd hp
    rw [hashArtifacts, hashArtifacts, sortedDeployedBytecodes_perm hnd hp]
  · intro keccak
    rw [hashArtifacts]
    simp [sortedDeployedBytecodes]

/-- Witness for C10: the same two artifacts inserted in either order hash
identically, and the empty map hashes `"0x"`. -/
theorem hashArtifacts_spec_witness :
    hashArtifacts (fun s => s)
        [("B", ⟨Json.null, "0xbb", "0xb0"⟩), ("A", ⟨Json.null, "0xaa", "0xa0"⟩)] =
      hashArtifacts (fun s => s)
        [("A", ⟨Json.null, "0xaa", "0xa0"⟩), ("B", ⟨Json.null, "0xbb", "0xb0"⟩)] ∧
    hashArtifacts (fun s => s) [] = "0x" :=
  ⟨hashArtifacts_spec.1 (fun s => s)
      [("B", ⟨Json.null, "0xbb", "0xb0"⟩), ("A", ⟨Json.null, "0xaa", "0xa0"⟩)]
      [("A", ⟨Json.null, "0xaa", "0xa0"⟩), ("B", ⟨Json.null, "0xbb", "0xb0"⟩)]
      (by decide) (by decide),
   hashArtifacts_spec.2 (fun s => s)⟩

/-- The per-span loop of `extractTemplateSource` (`src/ast-utils.ts` lines
111-117): accumulate head text, resolved interpolations and literal texts;
unresolved on the first unresolvable interpolation. -/
def extractSpans (fuel : Nat) (sf : List Statement) :
    List TemplateSpanNode → String → Option String
  | [], acc => some acc
  | span :: rest, acc =>
    match resolveStringExpression fuel sf span.expr with
    | none => none
    | some s => extractSpans fuel sf rest (acc ++ s ++ span.litText)

/-- Model of `extractTemplateSource` (`src/ast-utils.ts` lines 102-118):
the full foreign source of a template, or `none` when any interpolation
cannot be statically resolved. -/
def extractTemplateSource (fuel : Nat) (sf : List Statement) : TemplateNode → Option String
  | .noSub text _ _ => some text
  | .subst headText _ spans _ => extractSpans fuel sf spans headText

/-- A node of the host syntax tree as visited by the build transform: a
tagged template expression (tag, template, `getStart`/`getEnd` span, and
children) or any other node with its children. -/
inductive TsNode where
  | taggedTemplate (tag : TagNode) (template : TemplateNode) (nodeStart nodeEnd : Nat)
      (children : List TsNode)
  | otherNode (children : List TsNode)

/-- One `MagicString.overwrite(start, end, replacement)` call. -/
structure Edit where
  start : Nat
  stop : Nat
  replacement : String
  deriving DecidableEq

mutual

/-- The visitor of `transformSolTemplates` (`src/bundler/unplugin.ts` lines
54-92), reified as the list of overwrite edits it records: a recognized
`sol` tag with a resolvable template emits one overwrite of the node's
span and does not descend; a recognized tag with an unresolvable template
emits nothing and does not descend; any other node recurses into its
children.  `replFor` stands for the replacement text construction
(`__InlineContract.fromArtifacts(name, artifacts)`, which invokes the
compiler on the resolved source). -/
def collectEdits (fuel : Nat) (sf : List Statement) (replFor : String → String → String) :
    TsNode → List Edit
  | .taggedTemplate tag template s e children =>
    match isSolTag tag with
    | some contractName =>
      match extractTemplateSource fuel sf template with
      | none => []
      | some src => [⟨s, e, replFor contractName src⟩]
    | none => collectEditsList fuel sf replFor children
  | .otherNode children => collectEditsList fuel sf replFor children

/-- `collectEdits` over a child list, left to right. -/
def collectEditsList (fuel : Nat) (sf : List Statement)
    (replFor : String → String → String) : List TsNode → List Edit
  | [] => []
  | n :: rest => collectEdits fuel sf replFor n ++ collectEditsList fuel sf replFor rest

end

/-- `code.slice(a, b)` on character positions. -/
def sliceStr (s : String) (a b : Nat) : String :=
  String.mk ((s.data.drop a).take (b - a))

/-- Apply position-sorted, non-overlapping overwrite edits to the input
text, as `MagicString.toString()` renders them: unedited gaps are copied
verbatim and each edited span is replaced by its replacement. -/
def applyEdits (code : String) : List Edit → Nat → String
  | [], pos => sliceStr code pos code.length
  | ed :: rest, pos => sliceStr code pos ed.start ++ ed.replacement ++ applyEdits code rest ed.stop

/-- The import line prepended once per rewritten file
(`src/bundler/unplugin.ts` line 96). -/
def importPrelude : String :=
  "import \x7b InlineContract as __InlineContract \x7d from \"soltag\";\n"

/-- Model of `transformSolTemplates` (`src/bundler/unplugin.ts` lines
40-102): the regex fast path (`solTagPattern`, modelling the
`\bsol\s*\(...\)` test) returns `none` early; otherwise the visitor's
edits are applied and the import line prepended, or `none` is returned
when no site was rewritten. -/
def transformSolTemplates (fuel : Nat) (sf : List Statement)
    (replFor : String → String → String) (solTagPattern : String → Bool)
    (code : String) (ast : TsNode) : Option String :=
  if solTagPattern code then
    if (collectEdits fuel sf replFor ast).isEmpty then none
    else some (importPrelude ++ applyEdits code (collectEdits fuel sf replFor ast) 0)
  else none

/-- `editsSortedFrom pos edits`: the edits start at or after `pos`, are
well-formed (`start ≤ stop`) and pairwise non-overlapping in increasing
position order — the shape MagicString requires and a depth-first visit of
a well-formed syntax tree produces. -/
def editsSortedFrom : Nat → List Edit → Bool
  | _, [] => true
  | pos, ed :: rest =>
    decide (pos ≤ ed.start) && decide (ed.start ≤ ed.stop) && editsSortedFrom ed.stop rest

lemma mk_append (xs ys : List Char) : String.mk xs ++ String.mk ys = String.mk (xs ++ ys) := rfl

lemma append_assoc_str (x y z : String) : (x ++ y) ++ z = x ++ (y ++ z) := by
  cases x
  cases y
  cases z
  rw [mk_append, mk_append, mk_append, mk_append, List.append_assoc]

lemma sliceStr_split (code : String) (a b c : Nat) (hab : a ≤ b) (hbc : b ≤ c) :
    sliceStr code a c = sliceStr code a b ++ sliceStr code b c := by
  rw [sliceStr, sliceStr, sliceStr, mk_append]
  refine congrArg String.mk ?_
  have h1 : c - a = (b - a) + (c - b) := by omega
  rw [h1, List.take_add, List.drop_drop]
  have h2 : a + (b - a) = b := by omega
  rw [h2]

lemma applyEdits_preserves (code : String) (s e : Nat) :
    ∀ (edits : List Edit) (pos : Nat),
      editsSortedFrom pos edits = true →
      (∀ ed ∈ edits, ed.stop ≤ s ∨ e ≤ ed.start) →
      pos ≤ s → s ≤ e → e ≤ code.length →
      ∃ pre post, applyEdits code edits pos = pre ++ sliceStr code s e ++ post := by
  intro edits
  induction edits with
  | nil =>
    intro pos _ _ hps hse hel
    refine ⟨sliceStr code pos s, sliceStr code e code.length, ?_⟩
    rw [applyEdits, sliceStr_split code pos s code.length hps (hse.trans hel),
        sliceStr_split code s e code.length hse hel, append_assoc_str]
  | cons ed rest ih =>
    intro pos hsort hdisj hps hse hel
    simp only [editsSortedFrom, Bool.and_eq_true, decide_eq_true_eq] at hsort
    obtain ⟨⟨hpos, hed⟩, hsrest⟩ := hsort
    rcases hdisj ed (by simp) with hbefore | hafter
    · obtain ⟨pre', post', hrec⟩ :=
        ih ed.stop hsrest (fun x hx => hdisj x (List.mem_cons_of_mem _ hx)) hbefore hse hel
      refine ⟨sliceStr code pos ed.start ++ ed.replacement ++ pre', post', ?_⟩
      rw [applyEdits, hrec]
      simp only [append_assoc_str]
    · refine ⟨sliceStr code pos s,
        sliceStr code e ed.start ++ ed.replacement ++ applyEdits code rest ed.stop, ?_⟩
      rw [applyEdits,
        sliceStr_split code pos s ed.start hps (hse.trans hafter),
        sliceStr_split code s e ed.start hse hafter]
      simp only [append_assoc_str]

/-- Claim C8: The build transform leaves unresolvable sites byte-for-byte
unchanged and reports "no change" when nothing was rewritten: (1) a
recognized `sol` site whose template cannot be statically resolved emits
no overwrite edit (the rewriter skips it, without descending); (2) a file
whose visit emits no edit yields the "no change" result `none`, with the
input text untouched; (3) whenever the emitted edits are position-sorted
and all disjoint from a region `[s, e)` of the input — as they are for the
span of a skipped site in a well-formed tree — the produced output
contains the input's `[s, e)` text verbatim. -/
theorem transformSolTemplates_spec (fuel : Nat) (sf : List Statement)
    (replFor : String → String → String) (solTagPattern : String → Bool) (code : String) :
    (∀ tag template s e children, isSolTag tag ≠ none →
      extractTemplateSource fuel sf template = none →
      collectEdits fuel sf replFor (.taggedTemplate tag template s e children) = []) ∧
    (∀ ast, collectEdits fuel sf replFor ast = [] →
      transformSolTemplates fuel sf replFor solTagPattern code ast = none) ∧
    (∀ ast s e out,
      editsSortedFrom 0 (collectEdits fuel sf replFor ast) = true →
      (∀ ed ∈ collectEdits fuel sf replFor ast, ed.stop ≤ s ∨ e ≤ ed.start) →
      s ≤ e → e ≤ code.length →
      transformSolTemplates fuel sf replFor solTagPattern code ast = some out →
      ∃ pre post, out = pre ++ sliceStr code s e ++ post) := by
  refine ⟨?_, ?_, ?_⟩
  · intro tag template s e children htag hext
    cases hs : isSolTag tag with
    | none => exact absurd hs htag
    | some contractName => simp [collectEdits, hs, hext]
  · intro ast hempty
    rw [transformSolTemplates]
    by_cases hpat : solTagPattern code
    · rw [if_pos hpat, hempty]
      simp
    · rw [if_neg hpat]
  · intro ast s e out hsort hdisj hse hel htr
    rw [transformSolTemplates] at htr
    by_cases hpat : solTagPattern code
    · rw [if_pos hpat] at htr
      by_cases hempty : (collectEdits fuel sf replFor ast).isEmpty
      · rw [if_pos hempty] at htr
        exact absurd htr (by simp)
      · rw [if_neg hempty] at htr
        have hout : out = importPrelude ++ applyEdits code (collectEdits fuel sf replFor ast) 0 :=
          (Option.some.inj htr).symm
        obtain ⟨pre, post, happ⟩ :=
          applyEdits_preserves code s e (collectEdits fuel sf replFor ast) 0 hsort hdisj
            (Nat.zero_le s) hse hel
        refine ⟨importPrelude ++ pre, post, ?_⟩
        rw [hout, happ]
        simp only [append_assoc_str]
    · rw [if_neg hpat] at htr
      exact absurd htr (by simp)

/-- Witness for C8: a recognized site with an unresolvable interpolation
emits no edit and a file containing only such a site is left unchanged
(`none`); for a file with one rewritten site, the text left of the
rewritten span survives verbatim in the output. -/
theorem transformSolTemplates_spec_witness :
    collectEdits 0 [] (fun _ _ => "R")
        (.taggedTemplate (.callTag (.ident "sol") [.stringLit "A"])
          (.subst "A" 1 [⟨.otherExpr, 3, 4, "B", 4⟩] 7) 0 8 []) = [] ∧
    transformSolTemplates 0 [] (fun _ _ => "R") (fun _ => true) "0123456789ABCDEF"
        (.taggedTemplate (.callTag (.ident "sol") [.stringLit "A"])
          (.subst "A" 1 [⟨.otherExpr, 3, 4, "B", 4⟩] 7) 0 8 []) = none ∧
    (∃ pre post,
      importPrelude ++ "012345R9ABCDEF" =
        pre ++ sliceStr "0123456789ABCDEF" 0 6 ++ post) := by
  have hskip := (transformSolTemplates_spec 0 [] (fun _ _ => "R") (fun _ => true)
      "0123456789ABCDEF").1
    (.callTag (.ident "sol") [.stringLit "A"]) (.subst "A" 1 [⟨.otherExpr, 3, 4, "B", 4⟩] 7)
    0 8 [] (by simp [isSolTag])
    (by simp [extractTemplateSource, extractSpans, resolveStringExpression])
  refine ⟨hskip, ?_, ?_⟩
  · exact (transformSolTemplates_spec 0 [] (fun _ _ => "R") (fun _ => true)
      "0123456789ABCDEF").2.1 _ hskip
  · refine (transformSolTemplates_spec 0 [] (fun _ _ => "R") (fun _ => true)
      "0123456789ABCDEF").2.2
      (.taggedTemplate (.callTag (.ident "sol") [.stringLit "A"]) (.noSub "x" 7 8) 6 9 [])
      0 6 (importPrelude ++ "012345R9ABCDEF")
      ?_ ?_ (by omega) (by decide) ?_
    · simp [collectEdits, isSolTag, extractTemplateSource, editsSortedFrom]
    · intro ed hed
      simp [collectEdits, isSolTag, extractTemplateSource] at hed
      rw [hed]
      right
      simp
    · simp only [transformSolTemplates, collectEdits, isSolTag, extractTemplateSource]
      norm_num [List.isEmpty, applyEdits, sliceStr]
      rfl

end Soltag
